import Mathlib

/-!
Shallow embedding of the resumable-orchestration core of the
`us-restaurant-scraper` repository (checkpoint store, dedup index, and the
search / details / retry phase loops of `gmaps_scraper`), together with
theorems settling the specification claims about it.

Modelling conventions:
* Python `set[str]` values are modelled as `List String` with
  insert-if-absent (`listInsert`); membership coincides with set membership.
* `hashlib.md5(key).hexdigest()` is modelled by the key string itself
  (the hash is used only as an identifier; md5 is treated as injective).
* File I/O and logging are not modelled; persistence functions are pure
  state transformers.  Loading from disk is modelled separately (see the
  `FileContent` / `Json` section) for the lenient-load claims.
* The batch executors (`scrape_searches`, `scrape_places`) are external
  collaborators; they are modelled as injected functions returning
  `Except String result`, where `.error msg` models a raised exception
  with message `str(e) = msg`.
-/

/-- Insert-if-absent, modelling Python `set.add` on a set represented as a
duplicate-free list. -/
def listInsert (s : List String) (x : String) : List String :=
  if x ∈ s then s else x :: s

/-- An `EntityRecord` as consumed by `DeduplicationManager`: a Python dict
with optional key `place_id` and string fields `name` / `address`
(`restaurant.get("name", "")` defaults to `""`, so a missing field is
modelled as the empty string). Other descriptive fields (rating, ...) are
never inspected by the orchestration core and are omitted. -/
structure Restaurant where
  place_id : Option String
  name : String
  address : String
deriving DecidableEq, Repr

/-- State of `DeduplicationManager`: the two seen-sets. -/
structure DedupState where
  placeIds : List String
  hashes : List String
deriving DecidableEq, Repr

/-- Fresh dedup state (both seen-sets empty). -/
def emptyDedup : DedupState := ⟨[], []⟩

/-- Python `str.lower()` (character-wise lowercasing). -/
def pyLower (s : String) : String :=
  String.mk (s.data.map Char.toLower)

/-- The whitespace characters stripped by Python `str.strip()` (the common
ASCII ones). -/
def isPySpace (c : Char) : Bool :=
  c = ' ' || c = '\t' || c = '\n' || c = '\r' || c = '\x0b' || c = '\x0c'

/-- Python `str.strip()`: drop leading and trailing whitespace. -/
def pyStrip (s : String) : String :=
  String.mk (((s.data.dropWhile isPySpace).reverse.dropWhile isPySpace).reverse)

/-- Models `DeduplicationManager._compute_hash`:
`f"{name.lower().strip()}|{address.lower().strip()}"` hashed with md5;
the md5 digest is modelled by the combined key itself (md5 is treated as
injective). -/
def compute_hash (name address : String) : String :=
  pyStrip (pyLower name) ++ "|" ++ pyStrip (pyLower address)

/-- Truthiness of `restaurant.get("place_id")`: `None` and `""` are falsy. -/
def truthyOpt : Option String → Bool
  | none => false
  | some s => decide (s ≠ "")

/-- Fallback branch of `is_duplicate`: `if name and address:` check the
name+address hash against the seen-hash set. -/
def hashDup (st : DedupState) (r : Restaurant) : Bool :=
  decide (r.name ≠ "") && decide (r.address ≠ "") &&
    decide (compute_hash r.name r.address ∈ st.hashes)

/-- Models `DeduplicationManager.is_duplicate`: place_id hit (when the id is
truthy) or name+address-hash hit (when both are truthy). -/
def is_duplicate (st : DedupState) (r : Restaurant) : Bool :=
  (match r.place_id with
   | some pid => decide (pid ≠ "") && decide (pid ∈ st.placeIds)
   | none => false)
  || hashDup st r

/-- First statement of `DeduplicationManager.mark_seen`: add the place id to
the seen-place-id set when it is truthy. -/
def mark_seen_pid (st : DedupState) (r : Restaurant) : DedupState :=
  match r.place_id with
  | some pid =>
      if pid ≠ "" then { st with placeIds := listInsert st.placeIds pid } else st
  | none => st

/-- Second statement of `DeduplicationManager.mark_seen`: add the
name+address hash to the seen-hash set when both fields are truthy. -/
def mark_seen_hash (st : DedupState) (r : Restaurant) : DedupState :=
  if r.name ≠ "" ∧ r.address ≠ "" then
    { st with hashes := listInsert st.hashes (compute_hash r.name r.address) }
  else st

/-- Models `DeduplicationManager.mark_seen`: add the place id when truthy,
then the name+address hash when both fields are truthy. -/
def mark_seen (st : DedupState) (r : Restaurant) : DedupState :=
  mark_seen_hash (mark_seen_pid st r) r

/-- Models `DeduplicationManager.filter_unique`: skip `None` slots, keep each
non-duplicate record and immediately mark it seen (so in-batch duplicates are
caught); returns the kept records and the final dedup state. -/
def filter_unique (st : DedupState) : List (Option Restaurant) → List Restaurant × DedupState
  | [] => ([], st)
  | none :: rest => filter_unique st rest
  | some r :: rest =>
      if is_duplicate st r then filter_unique st rest
      else
        let p := filter_unique (mark_seen st r) rest
        (r :: p.1, p.2)

/-- Character class `[a-f0-9]` of the link-identifier regex. -/
def isHexLower (c : Char) : Bool :=
  (decide ('0' ≤ c) && decide (c ≤ '9')) || (decide ('a' ≤ c) && decide (c ≤ 'f'))

/-- Match the regex tail `0x[a-f0-9]+:0x[a-f0-9]+` at the start of `cs`
(greedy runs; the classes exclude both `:` and `x`, so the greedy match never
backtracks), returning the captured group. -/
def matchHexPair (cs : List Char) : Option (List Char) :=
  match cs with
  | '0' :: 'x' :: rest =>
      let h1 := rest.takeWhile isHexLower
      if h1.isEmpty then none
      else
        match rest.dropWhile isHexLower with
        | ':' :: '0' :: 'x' :: rest2 =>
            let h2 := rest2.takeWhile isHexLower
            if h2.isEmpty then none
            else some ('0' :: 'x' :: h1 ++ ':' :: '0' :: 'x' :: h2)
        | _ => none
  | _ => none

/-- Models `re.search(r"!1s(0x[a-f0-9]+:0x[a-f0-9]+)", link)`: scan left to
right for the first position where the marker `!1s` is followed by a full
hex-pair match, and return the captured group. -/
def searchPlaceId : List Char → Option (List Char)
  | [] => none
  | c :: rest =>
      match c, rest with
      | '!', '1' :: 's' :: tail =>
          match matchHexPair tail with
          | some cap => some cap
          | none => searchPlaceId rest
      | _, _ => searchPlaceId rest

/-- Identifier extraction from a candidate link (the pure function inside
`DeduplicationManager.is_link_seen`). -/
def extractPlaceId (link : String) : Option String :=
  (searchPlaceId link.data).map (fun cs => String.mk cs)

/-- Models `DeduplicationManager.is_link_seen`: seen only when extraction
succeeds and the extracted id is in the seen-place-id set; unparsable links
are never seen. -/
def is_link_seen (st : DedupState) (link : String) : Bool :=
  match extractPlaceId link with
  | some pid => decide (pid ∈ st.placeIds)
  | none => false

/-- Models `DeduplicationManager.filter_unseen_links`. -/
def filter_unseen_links (st : DedupState) (links : List String) : List String :=
  links.filter (fun link => ! is_link_seen st link)

/-- A record is trackable by the dedup index when it carries a truthy
place id, or both a truthy name and a truthy address. -/
def trackable (r : Restaurant) : Bool :=
  truthyOpt r.place_id || (decide (r.name ≠ "") && decide (r.address ≠ ""))

/-- A `SearchQuery` as consumed by the orchestrator: only its `"query"` text
is ever inspected (`q.get("query", "")`); the geographic / category tags are
opaque payload and are omitted. -/
structure SearchQuery where
  query : String
deriving DecidableEq, Repr

/-- One per-query slot returned by the search batch executor
(`scrape_searches`).  `query` models `result["search_data"]["query"]` (with
the `""` defaults of the two `get` calls); `place_links` models
`result.get("place_links")`, where a missing key and an empty list are both
falsy and are identified with `[]`.  The optional `"error"` field is only
logged and is omitted. -/
structure SearchResult where
  query : String
  place_links : List String
deriving DecidableEq, Repr

/-- An item recorded in the failure log: either a search query (search-phase
batch failure) or a candidate link (details-phase batch failure). -/
inductive FailItem
  | query (q : SearchQuery)
  | link (l : String)
deriving DecidableEq, Repr

/-- A failure-log entry (`CheckpointManager.record_failure`); the wall-clock
`timestamp` field is omitted. -/
structure Failure where
  item : FailItem
  error : String
deriving DecidableEq, Repr

/-- Models `CheckpointManager.remove_processed_links`: keep the pending links
that are not in `set(links)`. -/
def remove_processed_links (pending links : List String) : List String :=
  pending.filter (fun link => decide (link ∉ links))

/-- Models `CheckpointManager.get_next_batch`: the length-`batch_size` prefix
of the pending queue. -/
def get_next_batch (pending : List String) (batch_size : Nat) : List String :=
  pending.take batch_size

/-- Models `CheckpointManager.add_pending_links`.  Python computes
`existing = set(current queue)`, keeps `new_links = [l for l in links if l
not in existing]`, and when `new_links` is non-empty persists
`list(existing) + new_links`.  The iteration order of a Python set is
unspecified; `list(existing)` is modelled as `pending.dedup` (one canonical
duplicate-free enumeration of the current queue).  Returns the new queue and
the reported count `len(new_links)`. -/
def add_pending_links (pending links : List String) : List String × Nat :=
  let newLinks := links.filter (fun l => decide (l ∉ pending))
  if newLinks.isEmpty then (pending, newLinks.length)
  else (pending.dedup ++ newLinks, newLinks.length)

/-- Models `CheckpointManager.get_remaining_searches`: the queries whose
`"query"` text is not in the completed-search set. -/
def get_remaining_searches (completed : List String) (all_queries : List SearchQuery) :
    List SearchQuery :=
  all_queries.filter (fun q => decide (q.query ∉ completed))

/-- The checkpoint/dedup state visible to the Search Phase. -/
structure SearchState where
  completed : List String
  pending : List String
  failures : List Failure
  dedup : DedupState
deriving DecidableEq, Repr

/-- The search batch executor `scrape_searches`, an external collaborator:
`.error msg` models a raised whole-batch exception with `str(e) = msg`. -/
def SearchExec : Type := List SearchQuery → Except String (List SearchResult)

/-- One iteration of the per-result loop of `run_search_phase`: accumulate
the unseen links of the result (when `place_links` is truthy) and mark the
result's query completed.  The accumulator is `(batch_links, completed)`. -/
def processResult (dedup : DedupState) (acc : List String × List String)
    (r : SearchResult) : List String × List String :=
  let bl := if r.place_links.isEmpty then acc.1
            else acc.1 ++ filter_unseen_links dedup r.place_links
  (bl, listInsert acc.2 r.query)

/-- One batch of `run_search_phase` (`scraper.py` lines 57-108): filter the
batch down to not-yet-completed queries, skip when empty; on an executor
exception record one failure per query and mark nothing; on a normal return
accumulate unseen links and mark every result's query completed, then append
the accumulated links to the pending queue. -/
def searchBatchStep (exec : SearchExec) (s : SearchState) (batch : List SearchQuery) :
    SearchState :=
  let pq := batch.filter (fun q => decide (q.query ∉ s.completed))
  if pq.isEmpty then s
  else
    match exec pq with
    | .error msg =>
        { s with failures := s.failures ++ pq.map (fun q => ⟨.query q, msg⟩) }
    | .ok results =>
        let acc := results.foldl (processResult s.dedup) ([], s.completed)
        let pending1 := if acc.1.isEmpty then s.pending
                       else (add_pending_links s.pending acc.1).1
        { s with completed := acc.2, pending := pending1 }

/-- The batch loop `for i in range(0, len(remaining), batch_size)` of
`run_search_phase`, with explicit fuel.  With `1 ≤ batch_size` the remaining
list shrinks by at least one query per iteration, so fuel
`remaining.length` is always sufficient (Python raises `ValueError` on a
zero step, so `batch_size = 0` is outside the modelled domain). -/
def runSearchBatches (exec : SearchExec) (batch_size : Nat) :
    Nat → SearchState → List SearchQuery → SearchState
  | _, s, [] => s
  | 0, s, _ :: _ => s
  | fuel + 1, s, remaining@(_ :: _) =>
      runSearchBatches exec batch_size fuel
        (searchBatchStep exec s (remaining.take batch_size))
        (remaining.drop batch_size)

/-- Models `run_search_phase`: compute the remaining queries once, then run
the batch loop (an empty remaining list returns immediately). -/
def run_search_phase (exec : SearchExec) (batch_size : Nat)
    (queries : List SearchQuery) (s : SearchState) : SearchState :=
  let remaining := get_remaining_searches s.completed queries
  runSearchBatches exec batch_size remaining.length s remaining

/-- The halting threshold of the Details Phase: the constant
`MAX_CONSECUTIVE_EMPTY = 5` hardcoded in `run_details_phase`. -/
def MAX_CONSECUTIVE_EMPTY : Nat := 5

/-- The checkpoint/dedup/accumulator state threaded through the Details
Phase batch loop. `restaurants` is the accumulated `all_restaurants` list,
`completedDetails` the `progress["completed_details"]` counter,
`consecutiveEmpty` the `consecutive_empty_batches` counter, and `halted`
records whether the zero-results heuristic broke out of the loop. -/
structure DetailsState where
  pending : List String
  dedup : DedupState
  restaurants : List Restaurant
  failures : List Failure
  completedDetails : Nat
  consecutiveEmpty : Nat
  halted : Bool
deriving DecidableEq, Repr

/-- The details batch executor `scrape_places`, an external collaborator:
each slot is `none` when the candidate was rejected or its fetch failed;
`.error msg` models a raised whole-batch exception. -/
def DetailsExec : Type := List String → Except String (List (Option Restaurant))

/-- One batch attempt of `run_details_phase` (`scraper.py` lines 175-222):
take the batch prefix, run the executor; on a normal return filter-unique
the results, extend the accumulated restaurants, update the
consecutive-empty counter (incremented exactly when the *raw* result list is
empty and the batch is non-empty, halting at the threshold; reset
otherwise) and remove the batch from the pending queue; on an exception
record one failure per link and remove the batch. -/
def detailsStep (exec : DetailsExec) (batch_size : Nat) (s : DetailsState) :
    DetailsState :=
  let batch := get_next_batch s.pending batch_size
  match exec batch with
  | .error msg =>
      { s with failures := s.failures ++ batch.map (fun l => ⟨.link l, msg⟩),
               pending := remove_processed_links s.pending batch }
  | .ok results =>
      let u := filter_unique s.dedup results
      let restaurants1 := s.restaurants ++ u.1
      if results.isEmpty && ! batch.isEmpty then
        if MAX_CONSECUTIVE_EMPTY ≤ s.consecutiveEmpty + 1 then
          { pending := remove_processed_links s.pending batch,
            dedup := u.2, restaurants := restaurants1, failures := s.failures,
            completedDetails := s.completedDetails + batch.length,
            consecutiveEmpty := s.consecutiveEmpty + 1, halted := true }
        else
          { pending := remove_processed_links s.pending batch,
            dedup := u.2, restaurants := restaurants1, failures := s.failures,
            completedDetails := s.completedDetails + batch.length,
            consecutiveEmpty := s.consecutiveEmpty + 1, halted := s.halted }
      else
        { pending := remove_processed_links s.pending batch,
          dedup := u.2, restaurants := restaurants1, failures := s.failures,
          completedDetails := s.completedDetails + batch.length,
          consecutiveEmpty := 0, halted := s.halted }

/-- The `while True` loop of `run_details_phase`, with explicit fuel: stop
when the next batch is empty (`if not batch: break`) or when a step halted
via the zero-results heuristic.  Each attempted batch removes at least its
head from the pending queue, so fuel `pending.length` is always
sufficient. -/
def runDetailsLoop (exec : DetailsExec) (batch_size : Nat) :
    Nat → DetailsState → DetailsState
  | 0, s => s
  | fuel + 1, s =>
      if (get_next_batch s.pending batch_size).isEmpty then s
      else
        let s1 := detailsStep exec batch_size s
        if s1.halted then s1 else runDetailsLoop exec batch_size fuel s1

/-- A JSON value, as produced by Python `json.load`; numbers are modelled as
integers (no claim depends on floats). -/
inductive Json
  | null
  | bool (b : Bool)
  | num (n : Int)
  | str (s : String)
  | arr (xs : List Json)
  | obj (kvs : List (String × Json))

mutual

/-- Boolean equality on JSON values (used to model Python set membership on
hashable values). -/
def Json.beq : Json → Json → Bool
  | .null, .null => true
  | .bool a, .bool b => a == b
  | .num a, .num b => a == b
  | .str a, .str b => a == b
  | .arr xs, .arr ys => Json.beqList xs ys
  | .obj xs, .obj ys => Json.beqObj xs ys
  | _, _ => false

/-- Elementwise `Json.beq` on lists. -/
def Json.beqList : List Json → List Json → Bool
  | [], [] => true
  | x :: xs, y :: ys => Json.beq x y && Json.beqList xs ys
  | _, _ => false

/-- Elementwise `Json.beq` on key-value lists. -/
def Json.beqObj : List (String × Json) → List (String × Json) → Bool
  | [], [] => true
  | (k1, v1) :: xs, (k2, v2) :: ys => k1 == k2 && Json.beq v1 v2 && Json.beqObj xs ys
  | _, _ => false

end

/-- Membership of a JSON value in a list, via `Json.beq`. -/
def jsonMem (x : Json) (xs : List Json) : Bool :=
  xs.any (Json.beq x)

/-- Deduplicate a list of JSON values (the canonical enumeration of the
Python set built from it). -/
def jsonDedup : List Json → List Json
  | [] => []
  | x :: xs => if jsonMem x xs then jsonDedup xs else x :: jsonDedup xs

/-- Content of a persisted-state file as seen by a loader: the file may be
missing, unreadable (`IOError`), present but not valid JSON
(`json.JSONDecodeError`), or hold a parsed JSON value. -/
inductive FileContent
  | missing
  | unreadable
  | invalidJson
  | jsonVal (v : Json)

/-- Python exceptions that the loaders can raise past their
`except (json.JSONDecodeError, IOError)` handlers. -/
inductive PyErr
  | attributeError
  | typeError
deriving DecidableEq, Repr

/-- Models `data.get(key, default)`: raises `AttributeError` when `data` is
not a dict. -/
def pyDictGet (v : Json) (key : String) (dflt : Json) : Except PyErr Json :=
  match v with
  | .obj kvs => .ok ((kvs.lookup key).getD dflt)
  | _ => .error .attributeError

/-- Models Python iteration over a JSON value (`set(x)` iterates `x`):
lists yield their elements, strings their characters, dicts their keys;
null / bool / number raise `TypeError`. -/
def pyIter (v : Json) : Except PyErr (List Json) :=
  match v with
  | .arr xs => .ok xs
  | .str s => .ok (s.data.map (fun c => .str (String.mk [c])))
  | .obj kvs => .ok (kvs.map (fun kv => .str kv.1))
  | _ => .error .typeError

/-- A JSON value is hashable in Python exactly when it is not a list or a
dict. -/
def pyHashable : Json → Bool
  | .arr _ => false
  | .obj _ => false
  | _ => true

/-- Models `set(xs)` for an iterated list: raises `TypeError` on an
unhashable element, otherwise produces the set of elements (as a canonical
duplicate-free list). -/
def pySetOfList (xs : List Json) : Except PyErr (List Json) :=
  if xs.all pyHashable then .ok (jsonDedup xs) else .error .typeError

/-- Models `DeduplicationManager._load`: a missing file, an `IOError`, or a
`json.JSONDecodeError` yields the empty seen-sets; a parsed JSON value is
processed as `set(data.get("place_ids", []))` / `set(data.get("hashes",
[]))`, whose `AttributeError` / `TypeError` escape the handler. -/
def dedupLoad (c : FileContent) : Except PyErr (List Json × List Json) :=
  match c with
  | .missing => .ok ([], [])
  | .unreadable => .ok ([], [])
  | .invalidJson => .ok ([], [])
  | .jsonVal v => do
      let pidsRaw ← pyDictGet v "place_ids" (.arr [])
      let pids ← pySetOfList (← pyIter pidsRaw)
      let hashesRaw ← pyDictGet v "hashes" (.arr [])
      let hs ← pySetOfList (← pyIter hashesRaw)
      .ok (pids, hs)

/-- Models `CheckpointManager._load_completed_searches`:
`set(json.load(f))` with missing / unreadable / undecodable files yielding
the empty set. -/
def load_completed_searches (c : FileContent) : Except PyErr (List Json) :=
  match c with
  | .missing => .ok []
  | .unreadable => .ok []
  | .invalidJson => .ok []
  | .jsonVal v => do pySetOfList (← pyIter v)

/-- Models the load path of `CheckpointManager.get_pending_links`: the parsed
JSON value is cached verbatim; missing / unreadable / undecodable files
yield the empty list. -/
def load_pending_links (c : FileContent) : Except PyErr Json :=
  match c with
  | .jsonVal v => .ok v
  | _ => .ok (.arr [])

/-- The default progress snapshot built by `CheckpointManager.get_progress`;
`now` stands in for `datetime.now().isoformat()`. -/
def default_progress (now : String) : Json :=
  .obj [("phase", .str "search"),
        ("completed_searches_count", .num 0),
        ("completed_details", .num 0),
        ("total_links_found", .num 0),
        ("total_restaurants_saved", .num 0),
        ("last_update", .null),
        ("started_at", .str now)]

/-- Models `CheckpointManager.get_progress`: the parsed JSON value is
returned verbatim; missing / unreadable / undecodable files yield the
default snapshot. -/
def load_progress (now : String) (c : FileContent) : Except PyErr Json :=
  match c with
  | .jsonVal v => .ok v
  | _ => .ok (default_progress now)

/-- Models `CheckpointManager.get_failures`: the parsed JSON value is
returned verbatim; missing / unreadable / undecodable files yield the empty
list. -/
def load_failures (c : FileContent) : Except PyErr Json :=
  match c with
  | .jsonVal v => .ok v
  | _ => .ok (.arr [])

/-- A file content is missing or unparseable (as opposed to holding valid
JSON of some shape). -/
def missingOrUnparseable : FileContent → Bool
  | .jsonVal _ => false
  | _ => true

/-- Pointwise inclusion of dedup states (both seen-sets grow). -/
def SubDedup (s t : DedupState) : Prop :=
  s.placeIds ⊆ t.placeIds ∧ s.hashes ⊆ t.hashes

/-- The Batch Executor contract for the Search Phase: the executor returns
normally with exactly one result slot per submitted query, slot `i` carrying
the text of query `i` in its `search_data`. -/
def execMatches (exec : SearchExec) : Prop :=
  ∀ b, ∃ rs, exec b = .ok rs ∧
    rs.map (fun r => r.query) = b.map (fun q => q.query)

/-- A concrete contract-abiding search executor (used by witnesses): one
result slot per query, carrying the query text and no links. -/
def okEmptyLinksExec : SearchExec :=
  fun b => Except.ok (b.map (fun q => ⟨q.query, []⟩))

theorem mem_listInsert_self (s : List String) (x : String) : x ∈ listInsert s x := by
  unfold listInsert
  split
  · assumption
  · exact List.mem_cons_self x s

theorem mem_listInsert_of_mem (s : List String) (x y : String) (h : y ∈ s) :
    y ∈ listInsert s x := by
  unfold listInsert
  split
  · exact h
  · exact List.mem_cons_of_mem x h

theorem subset_listInsert (s : List String) (x : String) : s ⊆ listInsert s x :=
  fun _ h => mem_listInsert_of_mem s x _ h

theorem subDedup_refl (s : DedupState) : SubDedup s s :=
  ⟨fun _ h => h, fun _ h => h⟩

theorem subDedup_trans {s t u : DedupState} (h1 : SubDedup s t) (h2 : SubDedup t u) :
    SubDedup s u :=
  ⟨fun _ h => h2.1 (h1.1 h), fun _ h => h2.2 (h1.2 h)⟩

theorem mark_seen_pid_hashes (st : DedupState) (r : Restaurant) :
    (mark_seen_pid st r).hashes = st.hashes := by
  cases hpid : r.place_id <;> simp only [mark_seen_pid, hpid]
  split <;> rfl

theorem mark_seen_hash_placeIds (st : DedupState) (r : Restaurant) :
    (mark_seen_hash st r).placeIds = st.placeIds := by
  unfold mark_seen_hash
  split <;> rfl

theorem subDedup_mark_seen_pid (st : DedupState) (r : Restaurant) :
    SubDedup st (mark_seen_pid st r) := by
  cases hpid : r.place_id <;> simp only [mark_seen_pid, hpid]
  · exact subDedup_refl st
  · split
    · exact ⟨subset_listInsert _ _, fun _ h => h⟩
    · exact subDedup_refl st

theorem subDedup_mark_seen_hash (st : DedupState) (r : Restaurant) :
    SubDedup st (mark_seen_hash st r) := by
  unfold mark_seen_hash
  split
  · exact ⟨fun _ h => h, subset_listInsert _ _⟩
  · exact subDedup_refl st

theorem subDedup_mark_seen (st : DedupState) (r : Restaurant) :
    SubDedup st (mark_seen st r) :=
  subDedup_trans (subDedup_mark_seen_pid st r) (subDedup_mark_seen_hash _ r)

theorem subDedup_filter_unique (rs : List (Option Restaurant)) :
    ∀ st : DedupState, SubDedup st (filter_unique st rs).2 := by
  induction rs with
  | nil => exact fun st => subDedup_refl st
  | cons o rest ih =>
      intro st
      match o with
      | none => exact ih st
      | some r =>
          by_cases h : is_duplicate st r = true
          · simpa [filter_unique, h] using ih st
          · have h' : is_duplicate st r = false := by
              simpa using h
            simpa [filter_unique, h'] using
              subDedup_trans (subDedup_mark_seen st r) (ih (mark_seen st r))

theorem is_duplicate_mono {s t : DedupState} (r : Restaurant) (hsub : SubDedup s t)
    (h : is_duplicate s r = true) : is_duplicate t r = true := by
  unfold is_duplicate hashDup at h ⊢
  simp only [Bool.or_eq_true, Bool.and_eq_true, decide_eq_true_eq] at h ⊢
  rcases h with h1 | h2
  · refine Or.inl ?_
    match hr : r.place_id with
    | none => rw [hr] at h1; exact absurd h1 (by simp)
    | some pid =>
        rw [hr] at h1
        simp only [Bool.and_eq_true, decide_eq_true_eq] at h1 ⊢
        exact ⟨h1.1, hsub.1 h1.2⟩
  · exact Or.inr ⟨⟨h2.1.1, h2.1.2⟩, hsub.2 h2.2⟩

theorem is_duplicate_emptyDedup (r : Restaurant) : is_duplicate emptyDedup r = false := by
  unfold is_duplicate hashDup emptyDedup
  match h : r.place_id with
  | none => simp
  | some pid => simp

theorem is_duplicate_mark_seen_self (st : DedupState) (r : Restaurant)
    (h : trackable r = true) : is_duplicate (mark_seen st r) r = true := by
  unfold trackable at h
  simp only [Bool.or_eq_true, Bool.and_eq_true, decide_eq_true_eq] at h
  unfold is_duplicate hashDup
  simp only [Bool.or_eq_true, Bool.and_eq_true, decide_eq_true_eq]
  rcases h with hpid | ⟨hn, ha⟩
  · refine Or.inl ?_
    cases hr : r.place_id with
    | none => rw [hr] at hpid; exact absurd hpid (by simp [truthyOpt])
    | some pid =>
        rw [hr] at hpid
        have hne : pid ≠ "" := by simpa [truthyOpt] using hpid
        have hmem : pid ∈ (mark_seen st r).placeIds := by
          unfold mark_seen
          rw [mark_seen_hash_placeIds]
          simp only [mark_seen_pid, hr]
          rw [if_pos hne]
          exact mem_listInsert_self _ _
        simp only [Bool.and_eq_true, decide_eq_true_eq]
        exact ⟨hne, hmem⟩
  · refine Or.inr ⟨⟨hn, ha⟩, ?_⟩
    unfold mark_seen mark_seen_hash
    rw [if_pos ⟨hn, ha⟩]
    exact mem_listInsert_self _ _

theorem filter_unique_all_marked (rs : List (Option Restaurant)) :
    ∀ (st : DedupState) (r : Restaurant), some r ∈ rs → trackable r = true →
      is_duplicate (filter_unique st rs).2 r = true := by
  induction rs with
  | nil => intro st r hmem; exact absurd hmem (by simp)
  | cons o rest ih =>
      intro st r hmem htr
      match o with
      | none =>
          have hr : some r ∈ rest := by
            rcases List.mem_cons.mp hmem with h | h
            · exact absurd h (by simp)
            · exact h
          exact ih st r hr htr
      | some x =>
          by_cases hdup : is_duplicate st x = true
          · simp only [filter_unique, hdup, if_pos]
            rcases List.mem_cons.mp hmem with h | h
            · have hx : r = x := by injection h
              subst hx
              exact is_duplicate_mono r (subDedup_filter_unique rest st) hdup
            · exact ih st r h htr
          · have hdup' : is_duplicate st x = false := by simpa using hdup
            simp only [filter_unique, hdup', Bool.false_eq_true, if_false]
            rcases List.mem_cons.mp hmem with h | h
            · have hx : r = x := by injection h
              subst hx
              exact is_duplicate_mono r (subDedup_filter_unique rest (mark_seen st r))
                (is_duplicate_mark_seen_self st r htr)
            · exact ih (mark_seen st x) r h htr

theorem filter_unique_all_dup_nil (rs : List (Option Restaurant)) :
    ∀ st : DedupState, (∀ r : Restaurant, some r ∈ rs → is_duplicate st r = true) →
      (filter_unique st rs).1 = [] := by
  induction rs with
  | nil => intro st _; rfl
  | cons o rest ih =>
      intro st hall
      match o with
      | none =>
          exact ih st (fun r hr => hall r (List.mem_cons_of_mem none hr))
      | some x =>
          have hx : is_duplicate st x = true := hall x (List.mem_cons_self _ _)
          simp only [filter_unique, hx, if_pos]
          exact ih st (fun r hr => hall r (List.mem_cons_of_mem (some x) hr))

theorem filter_unique_fresh_ne_nil (rs : List (Option Restaurant)) :
    ∀ st : DedupState, (∃ r : Restaurant, some r ∈ rs) →
      (∀ r' : Restaurant, is_duplicate st r' = false) →
      (filter_unique st rs).1 ≠ [] := by
  induction rs with
  | nil => intro st hex _; rcases hex with ⟨r, hr⟩; exact absurd hr (by simp)
  | cons o rest ih =>
      intro st hex hfresh
      match o with
      | none =>
          have hex' : ∃ r : Restaurant, some r ∈ rest := by
            rcases hex with ⟨r, hr⟩
            rcases List.mem_cons.mp hr with h | h
            · exact absurd h (by simp)
            · exact ⟨r, h⟩
          exact ih st hex' hfresh
      | some x =>
          simp only [filter_unique, hfresh x, Bool.false_eq_true, if_false]
          exact List.cons_ne_nil _ _

theorem is_duplicate_untracked (r : Restaurant) (h : trackable r = false) :
    ∀ st : DedupState, is_duplicate st r = false := by
  intro st
  unfold trackable at h
  simp only [Bool.or_eq_false_iff] at h
  unfold is_duplicate hashDup
  simp only [Bool.or_eq_false_iff]
  constructor
  · cases hr : r.place_id with
    | none => rfl
    | some pid =>
        have h1 : truthyOpt r.place_id = false := h.1
        rw [hr] at h1
        have hpid0 : pid = "" := by simpa [truthyOpt] using h1
        show (decide (pid ≠ "") && decide (pid ∈ st.placeIds)) = false
        simp [hpid0]
  · rw [h.2]
    rfl

theorem mark_seen_untracked (r : Restaurant) (hpid : truthyOpt r.place_id = false)
    (hna : ¬(r.name ≠ "" ∧ r.address ≠ "")) : ∀ st : DedupState, mark_seen st r = st := by
  intro st
  unfold mark_seen mark_seen_hash
  rw [if_neg hna]
  cases hr : r.place_id with
  | none => simp only [mark_seen_pid, hr]
  | some pid =>
      rw [hr] at hpid
      have hpid0 : pid = "" := by simpa [truthyOpt] using hpid
      simp only [mark_seen_pid, hr]
      rw [if_neg (by simp [hpid0])]

theorem filter_unique_countP (r : Restaurant) (hdup : ∀ st, is_duplicate st r = false) :
    ∀ (rs : List (Option Restaurant)) (st : DedupState),
      rs.countP (fun o => decide (o = some r)) ≤
        (filter_unique st rs).1.countP (fun x => decide (x = r)) := by
  intro rs
  induction rs with
  | nil => intro st; simp [filter_unique]
  | cons o rest ih =>
      intro st
      match o with
      | none =>
          have hne : (decide ((none : Option Restaurant) = some r)) = false := by simp
          simp only [filter_unique, List.countP_cons, hne, if_false, Nat.add_zero]
          exact ih st
      | some x =>
          by_cases hx : x = r
          · subst hx
            simp only [filter_unique, hdup st, Bool.false_eq_true, if_false,
              List.countP_cons]
            exact Nat.add_le_add_right (ih (mark_seen st x)) 1
          · have h1 : (decide ((some x : Option Restaurant) = some r)) = false := by
              simp [hx]
            cases hdx : is_duplicate st x with
            | true =>
                simp only [filter_unique, hdx, if_true, List.countP_cons, h1, if_false,
                  Nat.add_zero]
                exact ih st
            | false =>
                have h2 : (decide (x = r)) = false := by simp [hx]
                simp only [filter_unique, hdx, Bool.false_eq_true, if_false,
                  List.countP_cons, h1, h2, Nat.add_zero]
                exact ih (mark_seen st x)

/-- C9: a record with no truthy place id and a missing/empty name or address
is invisible to deduplication: `is_duplicate` is `false` on it in every dedup
state, `mark_seen` leaves the state unchanged, and `filter_unique` keeps
every `some` occurrence of it every time it is presented. -/
theorem untracked_record_invisible (r : Restaurant)
    (hpid : truthyOpt r.place_id = false) (hna : r.name = "" ∨ r.address = "") :
    (∀ st : DedupState, is_duplicate st r = false)
    ∧ (∀ st : DedupState, mark_seen st r = st)
    ∧ (∀ (st : DedupState) (rs : List (Option Restaurant)),
        rs.countP (fun o => decide (o = some r)) ≤
          (filter_unique st rs).1.countP (fun x => decide (x = r))) := by
  have hna' : ¬(r.name ≠ "" ∧ r.address ≠ "") := by
    rcases hna with h | h
    · exact fun hc => hc.1 h
    · exact fun hc => hc.2 h
  have htr : trackable r = false := by
    unfold trackable
    rw [hpid]
    have : (decide (r.name ≠ "") && decide (r.address ≠ "")) = false := by
      rcases hna with h | h <;> simp [h]
    rw [this]
    rfl
  exact ⟨is_duplicate_untracked r htr, mark_seen_untracked r hpid hna',
    fun st rs => filter_unique_countP r (is_duplicate_untracked r htr) rs st⟩

/-- Witness for C9 at the concrete record `{name := "X"}` (no place id, empty
address) against a non-empty dedup state. -/
theorem untracked_record_invisible_witness :
    is_duplicate ⟨["A"], ["foo"]⟩ ⟨none, "X", ""⟩ = false
    ∧ mark_seen ⟨["A"], ["foo"]⟩ ⟨none, "X", ""⟩ = ⟨["A"], ["foo"]⟩
    ∧ ([some ⟨none, "X", ""⟩, none] : List (Option Restaurant)).countP
        (fun o => decide (o = some ⟨none, "X", ""⟩)) ≤
        (filter_unique ⟨["A"], ["foo"]⟩ [some ⟨none, "X", ""⟩, none]).1.countP
          (fun x => decide (x = ⟨none, "X", ""⟩)) := by
  have h := untracked_record_invisible ⟨none, "X", ""⟩ (by decide) (Or.inr rfl)
  exact ⟨h.1 _, h.2.1 _, h.2.2 _ _⟩

/-- C7: `filter_unseen_links` keeps a link exactly when it is in the input
and no successfully extracted identifier of it is already in the
seen-place-id set; in particular every link whose identifier cannot be
parsed is kept. -/
theorem filter_unseen_links_spec (st : DedupState) (links : List String) (link : String) :
    link ∈ filter_unseen_links st links ↔
      link ∈ links ∧ ∀ pid, extractPlaceId link = some pid → pid ∉ st.placeIds := by
  unfold filter_unseen_links
  rw [List.mem_filter]
  cases hx : extractPlaceId link with
  | none => simp [is_link_seen, hx]
  | some pid => simp [is_link_seen, hx]

/-- C3 counterexample: the single-record list holding the non-null record
`{name := "X"}` (no place id, empty address) is non-empty, yet running
`filter_unique` twice from the fresh state yields a *non-empty* result both
times: the second pass is not empty, contradicting the claim. -/
theorem filter_unique_twice_cex :
    ([some ⟨none, "X", ""⟩] : List (Option Restaurant)) ≠ []
    ∧ (filter_unique emptyDedup [some ⟨none, "X", ""⟩]).1 ≠ []
    ∧ (filter_unique (filter_unique emptyDedup [some ⟨none, "X", ""⟩]).2
        [some ⟨none, "X", ""⟩]).1 ≠ [] := by
  decide

/-- C3 (amended): for a record list containing at least one non-null record,
all of whose non-null records carry a dedup identity (truthy place id, or
truthy name and address), `filter_unique` from the fresh state yields a
non-empty result, and a second `filter_unique` of the same list on the
resulting state yields the empty result. -/
theorem filter_unique_twice (rs : List (Option Restaurant))
    (h1 : rs.any (fun o => o.isSome) = true)
    (h2 : rs.all (fun o => o.elim true trackable) = true) :
    (filter_unique emptyDedup rs).1 ≠ []
    ∧ (filter_unique (filter_unique emptyDedup rs).2 rs).1 = [] := by
  have hex : ∃ r : Restaurant, some r ∈ rs := by
    rcases List.any_eq_true.mp h1 with ⟨o, ho, hsome⟩
    rcases Option.isSome_iff_exists.mp hsome with ⟨r, hr⟩
    exact ⟨r, hr ▸ ho⟩
  have htr : ∀ r : Restaurant, some r ∈ rs → trackable r = true := by
    intro r hr
    simpa [Option.elim] using List.all_eq_true.mp h2 _ hr
  refine ⟨filter_unique_fresh_ne_nil rs emptyDedup hex
    (fun r' => is_duplicate_emptyDedup r'), ?_⟩
  exact filter_unique_all_dup_nil rs _
    (fun r hr => filter_unique_all_marked rs emptyDedup r hr (htr r hr))

/-- Witness for C3 (amended) at a concrete one-record list. -/
theorem filter_unique_twice_witness :
    (filter_unique emptyDedup [some ⟨some "A", "X", "Y"⟩]).1 ≠ []
    ∧ (filter_unique (filter_unique emptyDedup [some ⟨some "A", "X", "Y"⟩]).2
        [some ⟨some "A", "X", "Y"⟩]).1 = [] :=
  filter_unique_twice [some ⟨some "A", "X", "Y"⟩] (by decide) (by decide)

/-- C10: `remove_processed_links` removes every occurrence of each listed
link, returns an order-preserving sublist of the queue whose members are
exactly the pending links not listed, and leaves the queue unchanged when no
listed link occurs in it. -/
theorem remove_processed_links_spec (pending links : List String) :
    (∀ l ∈ links, l ∉ remove_processed_links pending links)
    ∧ (remove_processed_links pending links).Sublist pending
    ∧ (∀ l, l ∈ remove_processed_links pending links ↔ l ∈ pending ∧ l ∉ links)
    ∧ ((∀ l ∈ links, l ∉ pending) → remove_processed_links pending links = pending) := by
  refine ⟨?_, ?_, ?_, ?_⟩
  · intro l hl hmem
    rcases List.mem_filter.mp hmem with ⟨_, hdec⟩
    exact absurd hl (by simpa using hdec)
  · exact List.filter_sublist pending
  · intro l
    constructor
    · intro hmem
      rcases List.mem_filter.mp hmem with ⟨hp, hdec⟩
      exact ⟨hp, by simpa using hdec⟩
    · intro ⟨hp, hnl⟩
      exact List.mem_filter.mpr ⟨hp, by simpa using hnl⟩
  · intro hdisj
    apply List.filter_eq_self.mpr
    intro a ha
    simpa using fun hmem => hdisj a hmem ha

/-- Witness for C10 at a concrete queue and removal list. -/
theorem remove_processed_links_spec_witness :
    "b" ∉ remove_processed_links ["a", "b", "c", "b"] ["b"]
    ∧ remove_processed_links ["a", "b"] ["c"] = ["a", "b"] :=
  ⟨(remove_processed_links_spec ["a", "b", "c", "b"] ["b"]).1 "b" (by decide),
   (remove_processed_links_spec ["a", "b"] ["c"]).2.2.2 (by decide)⟩

/-- C6 counterexample: on the queue `["a", "a"]` (a reachable queue: two
copies of a new link in one call are both appended, first conjunct),
`add_pending_links` with the new link `"b"` does not preserve the existing
queue: it rewrites the queue through a set, collapsing the duplicate, so the
result is not the claimed existing-queue-then-appended-links list. -/
theorem add_pending_links_cex :
    (add_pending_links [] ["a", "a"]).1 = ["a", "a"]
    ∧ (add_pending_links ["a", "a"] ["b"]).1 ≠ ["a", "a", "b"]
    ∧ (add_pending_links ["a", "a"] ["b"]).2 = 1 := by
  decide

/-- C6 (amended): `add_pending_links` never appends an already-present link;
the returned count is exactly the number of appended links (the input links
not already present, kept in input order, duplicates included); the queue
membership afterwards is the union of the old queue and the input links; but
when at least one link is new the pre-existing portion of the queue is
replaced by its set serialization (each distinct existing link once, in the
model the first-occurrence enumeration `List.dedup`), and when no link is
new the queue is left exactly unchanged. -/
theorem add_pending_links_spec (pending links : List String) :
    (add_pending_links pending links).2
        = (links.filter (fun l => decide (l ∉ pending))).length
    ∧ (links.filter (fun l => decide (l ∉ pending)) = []
        → (add_pending_links pending links).1 = pending)
    ∧ (links.filter (fun l => decide (l ∉ pending)) ≠ []
        → (add_pending_links pending links).1
            = pending.dedup ++ links.filter (fun l => decide (l ∉ pending)))
    ∧ (∀ l, l ∈ (add_pending_links pending links).1 ↔ l ∈ pending ∨ l ∈ links) := by
  refine ⟨?_, ?_, ?_, ?_⟩
  · simp only [add_pending_links]
    split <;> rfl
  · intro h
    simp only [add_pending_links]
    rw [if_pos (List.isEmpty_iff.mpr h)]
  · intro h
    simp only [add_pending_links]
    rw [if_neg (by simpa [List.isEmpty_iff] using h)]
  · intro l
    simp only [add_pending_links]
    by_cases h : (links.filter (fun l => decide (l ∉ pending))).isEmpty
    · rw [if_pos h]
      have hall : ∀ x ∈ links, x ∈ pending := by
        intro x hx
        by_contra hnp
        have : x ∈ links.filter (fun l => decide (l ∉ pending)) :=
          List.mem_filter.mpr ⟨hx, by simpa using hnp⟩
        rw [List.isEmpty_iff.mp h] at this
        exact absurd this (by simp)
      constructor
      · exact fun hp => Or.inl hp
      · rintro (hp | hl)
        · exact hp
        · exact hall l hl
    · rw [if_neg h]
      constructor
      · intro hmem
        rcases List.mem_append.mp hmem with hd | hf
        · exact Or.inl (List.mem_dedup.mp hd)
        · exact Or.inr (List.mem_filter.mp hf).1
      · rintro (hp | hl)
        · exact List.mem_append.mpr (Or.inl (List.mem_dedup.mpr hp))
        · by_cases hp2 : l ∈ pending
          · exact List.mem_append.mpr (Or.inl (List.mem_dedup.mpr hp2))
          · exact List.mem_append.mpr (Or.inr
              (List.mem_filter.mpr ⟨hl, by simpa using hp2⟩))

/-- Witness for C6 (amended) at concrete queues. -/
theorem add_pending_links_spec_witness :
    (add_pending_links ["a", "b"] ["b", "c"]).1 = ["a", "b", "c"]
    ∧ (add_pending_links ["a", "b"] ["b"]).1 = ["a", "b"]
    ∧ ("c" ∈ (add_pending_links ["a", "b"] ["b", "c"]).1) :=
  ⟨(add_pending_links_spec ["a", "b"] ["b", "c"]).2.2.1 (by decide),
   (add_pending_links_spec ["a", "b"] ["b"]).2.1 (by decide),
   ((add_pending_links_spec ["a", "b"] ["b", "c"]).2.2.2 "c").mpr (Or.inr (by decide))⟩

theorem remove_take_eq_drop : ∀ (l : List String) (n : Nat), l.Nodup →
    remove_processed_links l (l.take n) = l.drop n := by
  intro l
  induction l with
  | nil => intro n _; simp [remove_processed_links]
  | cons x xs ih =>
      intro n h
      have hhead : x ∉ xs := (List.nodup_cons.mp h).1
      have htail : xs.Nodup := (List.nodup_cons.mp h).2
      cases n with
      | zero => simp [remove_processed_links]
      | succ n =>
          unfold remove_processed_links
          rw [List.take_succ_cons, List.drop_succ_cons, List.filter_cons]
          have h1 : (decide (x ∉ x :: xs.take n)) = false := by simp
          rw [h1]
          simp only [Bool.false_eq_true, if_false]
          have hcong : xs.filter (fun a => decide (a ∉ x :: xs.take n))
              = xs.filter (fun a => decide (a ∉ xs.take n)) := by
            apply List.filter_congr
            intro a ha
            have hax : ¬a = x := fun he => hhead (he ▸ ha)
            simp [decide_eq_decide, List.mem_cons, hax]
          rw [hcong]
          exact ih n htail

/-- C1 counterexample: a pending queue holding the same link twice is
reachable (two copies of a new link in one `add_pending_links` call are both
appended, first conjunct); on such a queue a Details-Phase batch attempt
violates the conservation equation, because `remove_processed_links` removes
every occurrence of each batch link. -/
theorem details_batch_conservation_cex :
    (add_pending_links [] ["a", "a"]).1 = ["a", "a"]
    ∧ (detailsStep (fun _ => Except.ok []) 1
          ⟨["a", "a"], emptyDedup, [], [], 0, 0, false⟩).pending.length
        + (get_next_batch ["a", "a"] 1).length
        ≠ (["a", "a"] : List String).length := by
  decide

/-- C1 (amended): after any Details-Phase batch attempt — per-item successes
or failures, the halting branch, or a whole-batch executor exception — the
whole batch (the `batch_size` prefix of the pending queue) is removed from
the pending queue; and when the pending queue holds no duplicate links,
`len(pendingBefore) = len(pendingAfter) + len(batch)`. -/
theorem details_batch_removal (exec : DetailsExec) (batch_size : Nat) (s : DetailsState) :
    (detailsStep exec batch_size s).pending
        = remove_processed_links s.pending (get_next_batch s.pending batch_size)
    ∧ (s.pending.Nodup →
        (detailsStep exec batch_size s).pending.length
          + (get_next_batch s.pending batch_size).length = s.pending.length) := by
  have hpend : (detailsStep exec batch_size s).pending
      = remove_processed_links s.pending (get_next_batch s.pending batch_size) := by
    simp only [detailsStep]
    cases hE : exec (get_next_batch s.pending batch_size) with
    | error msg => rfl
    | ok results =>
        dsimp only
        split
        · split <;> rfl
        · rfl
  refine ⟨hpend, fun hnd => ?_⟩
  rw [hpend]
  simp only [get_next_batch]
  rw [remove_take_eq_drop s.pending batch_size hnd]
  rw [List.length_drop, List.length_take]
  omega

/-- Witness for C1 (amended) on a duplicate-free queue. -/
theorem details_batch_removal_witness :
    (detailsStep (fun _ => Except.ok []) 1
        ⟨["a", "b"], emptyDedup, [], [], 0, 0, false⟩).pending.length
      + (get_next_batch ["a", "b"] 1).length = (["a", "b"] : List String).length :=
  (details_batch_removal (fun _ => Except.ok []) 1
    ⟨["a", "b"], emptyDedup, [], [], 0, 0, false⟩).2 (by decide)

theorem get_next_batch_ne_nil (pending : List String) (bs : Nat)
    (hbs : 1 ≤ bs) (hp : pending ≠ []) : get_next_batch pending bs ≠ [] := by
  simp only [get_next_batch]
  cases hpe : pending with
  | nil => exact absurd hpe hp
  | cons a as =>
      cases bs with
      | zero => omega
      | succ b => simp

theorem detailsStep_ok_empty (exec : DetailsExec) (bs : Nat) (s : DetailsState)
    (hE : exec (get_next_batch s.pending bs) = .ok [])
    (hb : get_next_batch s.pending bs ≠ []) :
    detailsStep exec bs s =
      { pending := remove_processed_links s.pending (get_next_batch s.pending bs),
        dedup := s.dedup, restaurants := s.restaurants, failures := s.failures,
        completedDetails := s.completedDetails + (get_next_batch s.pending bs).length,
        consecutiveEmpty := s.consecutiveEmpty + 1,
        halted := if MAX_CONSECUTIVE_EMPTY ≤ s.consecutiveEmpty + 1 then true
                  else s.halted } := by
  have hbe : (get_next_batch s.pending bs).isEmpty = false := by
    simpa [List.isEmpty_iff] using hb
  simp only [detailsStep, hE, filter_unique, List.append_nil, List.isEmpty_nil, hbe,
    Bool.not_false, Bool.and_true, Bool.true_and, if_true]
  split <;> rfl

theorem runDetails_empty_halts (exec : DetailsExec) (bs : Nat)
    (hexec : ∀ b, exec b = .ok []) (hbs : 1 ≤ bs) :
    ∀ (j fuel : Nat) (s : DetailsState), 1 ≤ j →
      s.consecutiveEmpty + j = MAX_CONSECUTIVE_EMPTY → s.halted = false →
      s.pending.Nodup → j * bs ≤ s.pending.length → j ≤ fuel →
      (runDetailsLoop exec bs fuel s).halted = true ∧
      (runDetailsLoop exec bs fuel s).pending.length = s.pending.length - j * bs := by
  intro j
  induction j with
  | zero => intro fuel s h1; exact absurd h1 (by omega)
  | succ j ih =>
      intro fuel s _ hcnt hhalt hnd hlen hfuel
      cases fuel with
      | zero => exact absurd hfuel (by omega)
      | succ f =>
          have hbsmul : bs ≤ (j + 1) * bs := Nat.le_mul_of_pos_left bs (by omega)
          have hplen : 1 ≤ s.pending.length := by omega
          have hpne : s.pending ≠ [] := by
            intro h0
            rw [h0] at hplen
            simp at hplen
          have hbatch : get_next_batch s.pending bs ≠ [] :=
            get_next_batch_ne_nil s.pending bs hbs hpne
          have hbe : ¬((get_next_batch s.pending bs).isEmpty = true) := by
            simpa [List.isEmpty_iff] using hbatch
          have hstep := detailsStep_ok_empty exec bs s (hexec _) hbatch
          have hsp : (detailsStep exec bs s).pending = s.pending.drop bs := by
            rw [hstep]
            simp only [get_next_batch]
            exact remove_take_eq_drop s.pending bs hnd
          rw [show runDetailsLoop exec bs (f + 1) s =
              if (get_next_batch s.pending bs).isEmpty then s
              else
                (if (detailsStep exec bs s).halted then detailsStep exec bs s
                 else runDetailsLoop exec bs f (detailsStep exec bs s)) from rfl]
          rw [if_neg hbe]
          cases j with
          | zero =>
              have hc : MAX_CONSECUTIVE_EMPTY ≤ s.consecutiveEmpty + 1 := by omega
              have hh : (detailsStep exec bs s).halted = true := by
                rw [hstep]
                simp [hc]
              rw [if_pos hh]
              refine ⟨hh, ?_⟩
              rw [hsp, List.length_drop]
              omega
          | succ jj =>
              have hc : ¬(MAX_CONSECUTIVE_EMPTY ≤ s.consecutiveEmpty + 1) := by
                simp only [MAX_CONSECUTIVE_EMPTY] at hcnt ⊢
                omega
              have hh : (detailsStep exec bs s).halted = false := by
                rw [hstep]
                simp only [if_neg hc]
                exact hhalt
              rw [if_neg (by simp [hh])]
              have hmul : (jj + 1 + 1) * bs = (jj + 1) * bs + bs := by ring
              have hlen1 : (jj + 1) * bs ≤ (detailsStep exec bs s).pending.length := by
                rw [hsp, List.length_drop]
                omega
              have hnd1 : (detailsStep exec bs s).pending.Nodup := by
                rw [hsp]
                exact hnd.sublist (List.drop_sublist bs s.pending)
              have hcnt1 : (detailsStep exec bs s).consecutiveEmpty + (jj + 1)
                  = MAX_CONSECUTIVE_EMPTY := by
                rw [hstep]
                simp only
                omega
              have hres := ih f (detailsStep exec bs s) (by omega) hcnt1 hh hnd1 hlen1
                (by omega)
              refine ⟨hres.1, ?_⟩
              rw [hres.2, hsp, List.length_drop]
              omega

/-- C2 counterexample: an executor that yields zero *unique* results on every
batch — one `null` slot per submitted link, so `filter_unique` keeps nothing
(first conjunct) — never trips the halting heuristic, because the code counts
batches whose *raw* result list is empty (`len(results) == 0`), not batches
with zero unique results.  On a six-link queue with batch size 1 the phase
consumes the whole queue (no early halt, zero links left) instead of halting
after 5 batches with `6 - 5*1 = 1` link still pending as claimed. -/
theorem details_phase_halting_cex :
    (filter_unique emptyDedup ((["l1"] : List String).map (fun _ => none))).1 = []
    ∧ (runDetailsLoop (fun b => Except.ok (b.map (fun _ => none))) 1 10
        ⟨["l1", "l2", "l3", "l4", "l5", "l6"], emptyDedup, [], [], 0, 0, false⟩).halted
        = false
    ∧ (runDetailsLoop (fun b => Except.ok (b.map (fun _ => none))) 1 10
        ⟨["l1", "l2", "l3", "l4", "l5", "l6"], emptyDedup, [], [], 0, 0, false⟩).pending.length
        ≠ (["l1", "l2", "l3", "l4", "l5", "l6"] : List String).length
            - MAX_CONSECUTIVE_EMPTY * 1 := by
  decide

/-- C2 (amended): if the executor returns an *empty result list* for every
batch, then — for a duplicate-free initial queue of at least
`MAX_CONSECUTIVE_EMPTY * batch_size` links, positive batch size, and enough
fuel — the Details Phase halts early after exactly `MAX_CONSECUTIVE_EMPTY`
(= 5, a hardcoded constant, not configurable) consecutive empty batches,
leaving `len(initialQueue) - 5 * batch_size` links still pending.  Batches
with a non-empty result list reset the counter even when they produce zero
unique results (see the counterexample). -/
theorem details_phase_empty_halting (exec : DetailsExec) (bs fuel : Nat)
    (init : List String) (d : DedupState) (saved : List Restaurant)
    (fl : List Failure) (cd : Nat)
    (hexec : ∀ b, exec b = .ok []) (hbs : 1 ≤ bs) (hnd : init.Nodup)
    (hlen : MAX_CONSECUTIVE_EMPTY * bs ≤ init.length)
    (hfuel : MAX_CONSECUTIVE_EMPTY ≤ fuel) :
    (runDetailsLoop exec bs fuel ⟨init, d, saved, fl, cd, 0, false⟩).halted = true
    ∧ (runDetailsLoop exec bs fuel ⟨init, d, saved, fl, cd, 0, false⟩).pending.length
        = init.length - MAX_CONSECUTIVE_EMPTY * bs :=
  runDetails_empty_halts exec bs hexec hbs MAX_CONSECUTIVE_EMPTY fuel
    ⟨init, d, saved, fl, cd, 0, false⟩ (by decide) rfl rfl hnd hlen hfuel

/-- Witness for C2 (amended) on a six-link queue with batch size 1: the
phase halts with one link still pending. -/
theorem details_phase_empty_halting_witness :
    (runDetailsLoop (fun _ => Except.ok []) 1 10
        ⟨["l1", "l2", "l3", "l4", "l5", "l6"], emptyDedup, [], [], 0, 0, false⟩).halted
        = true
    ∧ (runDetailsLoop (fun _ => Except.ok []) 1 10
        ⟨["l1", "l2", "l3", "l4", "l5", "l6"], emptyDedup, [], [], 0, 0, false⟩).pending.length
        = (["l1", "l2", "l3", "l4", "l5", "l6"] : List String).length
            - MAX_CONSECUTIVE_EMPTY * 1 :=
  details_phase_empty_halting (fun _ => Except.ok []) 1 10
    ["l1", "l2", "l3", "l4", "l5", "l6"] emptyDedup [] [] 0
    (fun _ => rfl) (by decide) (by decide) (by decide) (by decide)

/-- C8 counterexample: a dedup-index file holding the *valid* JSON value `3`
(a corrupt artifact with an unexpected shape) makes the dedup load raise
`AttributeError` (`data.get` on a non-dict), which the
`except (json.JSONDecodeError, IOError)` handler does not catch — the load
is not exception-free on every corrupt file. -/
theorem lenient_load_cex :
    dedupLoad (.jsonVal (.num 3)) = .error .attributeError := rfl

/-- C8 (amended): for a file that is missing, unreadable (`IOError`), or not
parseable as JSON (`json.JSONDecodeError`), every persisted-artifact loader
returns its empty/default state and raises nothing; but a file holding valid
JSON of an unexpected shape can raise (see the counterexample). -/
theorem lenient_load_defaults (c : FileContent) (now : String)
    (h : missingOrUnparseable c = true) :
    dedupLoad c = .ok ([], [])
    ∧ load_completed_searches c = .ok []
    ∧ load_pending_links c = .ok (.arr [])
    ∧ load_progress now c = .ok (default_progress now)
    ∧ load_failures c = .ok (.arr []) := by
  cases c with
  | missing => exact ⟨rfl, rfl, rfl, rfl, rfl⟩
  | unreadable => exact ⟨rfl, rfl, rfl, rfl, rfl⟩
  | invalidJson => exact ⟨rfl, rfl, rfl, rfl, rfl⟩
  | jsonVal v => exact absurd h (by simp [missingOrUnparseable])

/-- Witness for C8 (amended) at a missing file. -/
theorem lenient_load_defaults_witness :
    dedupLoad .missing = .ok ([], [])
    ∧ load_completed_searches .missing = .ok []
    ∧ load_pending_links .missing = .ok (.arr [])
    ∧ load_progress "2024-01-01T00:00:00" .missing
        = .ok (default_progress "2024-01-01T00:00:00")
    ∧ load_failures .missing = .ok (.arr []) :=
  lenient_load_defaults .missing "2024-01-01T00:00:00" rfl

theorem processResult_foldl_mem (d : DedupState) (results : List SearchResult) :
    ∀ (acc : List String × List String) (x : String), x ∈ acc.2 →
      x ∈ (results.foldl (processResult d) acc).2 := by
  induction results with
  | nil => intro acc x hx; exact hx
  | cons r rest ih =>
      intro acc x hx
      simp only [List.foldl_cons]
      refine ih (processResult d acc r) x ?_
      simp only [processResult]
      exact mem_listInsert_of_mem _ _ _ hx

theorem processResult_foldl_marks (d : DedupState) (results : List SearchResult) :
    ∀ (acc : List String × List String) (r : SearchResult), r ∈ results →
      r.query ∈ (results.foldl (processResult d) acc).2 := by
  induction results with
  | nil => intro acc r hr; exact absurd hr (by simp)
  | cons r0 rest ih =>
      intro acc r hr
      simp only [List.foldl_cons]
      rcases List.mem_cons.mp hr with h | h
      · subst h
        refine processResult_foldl_mem d rest (processResult d acc r) r.query ?_
        simp only [processResult]
        exact mem_listInsert_self _ _
      · exact ih (processResult d acc r0) r h

theorem searchBatchStep_completed_mono (exec : SearchExec) (s : SearchState)
    (batch : List SearchQuery) (x : String) (hx : x ∈ s.completed) :
    x ∈ (searchBatchStep exec s batch).completed := by
  simp only [searchBatchStep]
  split
  · exact hx
  · cases hE : exec (batch.filter (fun q => decide (q.query ∉ s.completed))) with
    | error msg => exact hx
    | ok results => exact processResult_foldl_mem s.dedup results ([], s.completed) x hx

theorem searchBatchStep_marks_of_ok (exec : SearchExec) (s : SearchState)
    (batch : List SearchQuery) (rs : List SearchResult)
    (hok : exec (batch.filter (fun q => decide (q.query ∉ s.completed))) = .ok rs)
    (hmap : rs.map (fun r => r.query)
      = (batch.filter (fun q => decide (q.query ∉ s.completed))).map (fun q => q.query)) :
    ∀ q ∈ batch, q.query ∈ (searchBatchStep exec s batch).completed := by
  intro q hq
  by_cases hc : q.query ∈ s.completed
  · exact searchBatchStep_completed_mono exec s batch _ hc
  · have hpq : q ∈ batch.filter (fun q => decide (q.query ∉ s.completed)) :=
      List.mem_filter.mpr ⟨hq, by simpa using hc⟩
    have hqq : q.query ∈ rs.map (fun r => r.query) := by
      rw [hmap]
      exact List.mem_map.mpr ⟨q, hpq, rfl⟩
    rcases List.mem_map.mp hqq with ⟨r, hrmem, hrq⟩
    have hfe : batch.filter (fun q => decide (q.query ∉ s.completed)) ≠ [] := by
      intro h0
      rw [h0] at hpq
      exact absurd hpq (by simp)
    have hne : ¬((batch.filter (fun q => decide (q.query ∉ s.completed))).isEmpty
        = true) := by
      simpa [List.isEmpty_iff] using hfe
    simp only [searchBatchStep]
    rw [if_neg hne, hok]
    show q.query ∈ (rs.foldl (processResult s.dedup) ([], s.completed)).2
    rw [← hrq]
    exact processResult_foldl_marks s.dedup rs ([], s.completed) r hrmem

theorem runSearchBatches_completed_mono (exec : SearchExec) (bs : Nat) :
    ∀ (fuel : Nat) (remaining : List SearchQuery) (s : SearchState) (x : String),
      x ∈ s.completed → x ∈ (runSearchBatches exec bs fuel s remaining).completed := by
  intro fuel
  induction fuel with
  | zero =>
      intro remaining s x hx
      cases remaining with
      | nil => exact hx
      | cons a as => exact hx
  | succ f ih =>
      intro remaining s x hx
      cases remaining with
      | nil => exact hx
      | cons a as =>
          exact ih ((a :: as).drop bs) (searchBatchStep exec s ((a :: as).take bs)) x
            (searchBatchStep_completed_mono exec s ((a :: as).take bs) x hx)

theorem runSearchBatches_marks (exec : SearchExec) (bs : Nat) (hbs : 1 ≤ bs)
    (hexec : execMatches exec) :
    ∀ (fuel : Nat) (remaining : List SearchQuery) (s : SearchState),
      remaining.length ≤ fuel →
      ∀ q ∈ remaining, q.query ∈ (runSearchBatches exec bs fuel s remaining).completed := by
  intro fuel
  induction fuel with
  | zero =>
      intro remaining s hlen q hq
      have h0 : remaining = [] := List.length_eq_zero.mp (by omega)
      subst h0
      exact absurd hq (by simp)
  | succ f ih =>
      intro remaining s hlen q hq
      cases remaining with
      | nil => exact absurd hq (by simp)
      | cons a as =>
          have hsplit : q ∈ (a :: as).take bs ∨ q ∈ (a :: as).drop bs := by
            rw [← List.take_append_drop bs (a :: as)] at hq
            exact List.mem_append.mp hq
          rcases hsplit with hqt | hqd
          · have hstep : q.query
                ∈ (searchBatchStep exec s ((a :: as).take bs)).completed := by
              obtain ⟨rs, hok, hmap⟩ :=
                hexec (((a :: as).take bs).filter (fun q => decide (q.query ∉ s.completed)))
              exact searchBatchStep_marks_of_ok exec s _ rs hok hmap q hqt
            exact runSearchBatches_completed_mono exec bs f ((a :: as).drop bs)
              (searchBatchStep exec s ((a :: as).take bs)) q.query hstep
          · have hlen2 : ((a :: as).drop bs).length ≤ f := by
              rw [List.length_drop]
              simp only [List.length_cons] at hlen ⊢
              omega
            exact ih ((a :: as).drop bs) (searchBatchStep exec s ((a :: as).take bs))
              hlen2 q hqd

/-- C4: for a Search-Phase batch, when the executor call returns normally
with one result slot per not-yet-completed query (slot `i` carrying query
`i`'s text), *every* query of the batch ends up marked completed, whatever
each slot's outcome (links, zero links, or a per-query error); when the
executor call raises, no query is marked, the pending queue is untouched,
one failure per attempted query is appended to the failure log, and the
batch's queries remain eligible for a subsequent run of the phase. -/
theorem search_batch_completion (exec : SearchExec) (s : SearchState)
    (batch : List SearchQuery) :
    (∀ rs, exec (batch.filter (fun q => decide (q.query ∉ s.completed))) = .ok rs →
      rs.map (fun r => r.query)
          = (batch.filter (fun q => decide (q.query ∉ s.completed))).map
              (fun q => q.query) →
      ∀ q ∈ batch, q.query ∈ (searchBatchStep exec s batch).completed)
    ∧ (∀ msg, exec (batch.filter (fun q => decide (q.query ∉ s.completed)))
          = .error msg →
      (searchBatchStep exec s batch).completed = s.completed
      ∧ (searchBatchStep exec s batch).pending = s.pending
      ∧ (searchBatchStep exec s batch).failures = s.failures
          ++ (batch.filter (fun q => decide (q.query ∉ s.completed))).map
              (fun q => ⟨.query q, msg⟩)
      ∧ ∀ qs, get_remaining_searches (searchBatchStep exec s batch).completed qs
            = get_remaining_searches s.completed qs) := by
  constructor
  · intro rs hok hmap
    exact searchBatchStep_marks_of_ok exec s batch rs hok hmap
  · intro msg hE
    by_cases hpe : (batch.filter (fun q => decide (q.query ∉ s.completed))).isEmpty
        = true
    · have hnil : batch.filter (fun q => decide (q.query ∉ s.completed)) = [] :=
        List.isEmpty_iff.mp hpe
      have hstep : searchBatchStep exec s batch = s := by
        simp only [searchBatchStep]
        rw [if_pos hpe]
      rw [hstep, hnil]
      exact ⟨rfl, rfl, by simp, fun qs => rfl⟩
    · have hstep : searchBatchStep exec s batch
          = { s with failures := (s.failures
              ++ (batch.filter (fun q => decide (q.query ∉ s.completed))).map
                  (fun q => ⟨.query q, msg⟩)) } := by
        simp only [searchBatchStep]
        rw [if_neg hpe, hE]
      rw [hstep]
      exact ⟨rfl, rfl, rfl, fun qs => rfl⟩

/-- Witness for C4: a one-query batch marked completed under a well-behaved
executor, and left unmarked (empty completed set) under a raising one. -/
theorem search_batch_completion_witness :
    "q1" ∈ (searchBatchStep okEmptyLinksExec
        ⟨[], [], [], emptyDedup⟩ [⟨"q1"⟩]).completed
    ∧ (searchBatchStep ((fun _ => Except.error "boom") : SearchExec)
        ⟨[], [], [], emptyDedup⟩ [⟨"q1"⟩]).completed = [] := by
  constructor
  · exact (search_batch_completion okEmptyLinksExec
      ⟨[], [], [], emptyDedup⟩ [⟨"q1"⟩]).1 [⟨"q1", []⟩] rfl (by decide) ⟨"q1"⟩ (by decide)
  · exact ((search_batch_completion ((fun _ => Except.error "boom") : SearchExec)
      ⟨[], [], [], emptyDedup⟩ [⟨"q1"⟩]).2 "boom" rfl).1

/-- C5: running the Search Phase twice with the same query list, a positive
batch size, and an executor that never raises and returns one
query-text-correlated slot per submitted query leaves the
CompletedSearchSet and PendingQueue after the second run identical to their
values after the first run (the second run changes no state). -/
theorem run_search_phase_idempotent (exec : SearchExec) (bs : Nat)
    (queries : List SearchQuery) (s : SearchState)
    (hbs : 1 ≤ bs) (hexec : execMatches exec) :
    (run_search_phase exec bs queries (run_search_phase exec bs queries s)).completed
        = (run_search_phase exec bs queries s).completed
    ∧ (run_search_phase exec bs queries (run_search_phase exec bs queries s)).pending
        = (run_search_phase exec bs queries s).pending := by
  have hall : ∀ q ∈ queries,
      q.query ∈ (run_search_phase exec bs queries s).completed := by
    intro q hq
    by_cases hc : q.query ∈ s.completed
    · simp only [run_search_phase]
      exact runSearchBatches_completed_mono exec bs _ _ s q.query hc
    · have hrem : q ∈ get_remaining_searches s.completed queries :=
        List.mem_filter.mpr ⟨hq, by simpa using hc⟩
      simp only [run_search_phase]
      exact runSearchBatches_marks exec bs hbs hexec _ _ s (le_refl _) q hrem
  have hempty : get_remaining_searches
      (run_search_phase exec bs queries s).completed queries = [] := by
    simp only [get_remaining_searches]
    rw [List.filter_eq_nil_iff]
    intro q hq
    simpa using hall q hq
  have heq : run_search_phase exec bs queries (run_search_phase exec bs queries s)
      = run_search_phase exec bs queries s := by
    generalize hs1 : run_search_phase exec bs queries s = s1 at hempty ⊢
    simp only [run_search_phase]
    rw [hempty]
    rfl
  exact ⟨by rw [heq], by rw [heq]⟩

/-- Witness for C5 on a concrete two-query list with batch size 1 and the
executor returning an empty link list per query. -/
theorem okEmptyLinksExec_matches : execMatches okEmptyLinksExec := by
  intro b
  have h : okEmptyLinksExec b
      = .ok (b.map (fun q => ({ query := q.query, place_links := [] } : SearchResult))) :=
    rfl
  refine ⟨_, h, ?_⟩
  rw [List.map_map]
  rfl

theorem run_search_phase_idempotent_witness :
    (run_search_phase okEmptyLinksExec 1 [⟨"a"⟩, ⟨"b"⟩]
        (run_search_phase okEmptyLinksExec 1 [⟨"a"⟩, ⟨"b"⟩]
          ⟨[], [], [], emptyDedup⟩)).completed
      = (run_search_phase okEmptyLinksExec 1 [⟨"a"⟩, ⟨"b"⟩]
          ⟨[], [], [], emptyDedup⟩).completed
    ∧ (run_search_phase okEmptyLinksExec 1 [⟨"a"⟩, ⟨"b"⟩]
        (run_search_phase okEmptyLinksExec 1 [⟨"a"⟩, ⟨"b"⟩]
          ⟨[], [], [], emptyDedup⟩)).pending
      = (run_search_phase okEmptyLinksExec 1 [⟨"a"⟩, ⟨"b"⟩]
          ⟨[], [], [], emptyDedup⟩).pending :=
  run_search_phase_idempotent okEmptyLinksExec 1 [⟨"a"⟩, ⟨"b"⟩]
    ⟨[], [], [], emptyDedup⟩ (by decide) okEmptyLinksExec_matches

/-- Sanity check of the regex embedding: the identifier is extracted from a
typical place link. -/
theorem extractPlaceId_example :
    extractPlaceId "https://maps/place/X!1s0x89c2a:0xdeadb5!8m2"
      = some "0x89c2a:0xdeadb5" := by
  decide

/-- Sanity check of the regex embedding: uppercase hex does not match the
character class, and a first failed marker position does not prevent a later
match. -/
theorem extractPlaceId_example2 :
    extractPlaceId "!1s0xZ:0x2 then !1s0xab:0xcd!extra" = some "0xab:0xcd"
    ∧ extractPlaceId "!1s0xAB:0xcd" = none
    ∧ extractPlaceId "no marker 0x1:0x2" = none := by
  decide

/-- Sanity check mirroring the spec section-8 scenario: an in-batch
duplicate (same place id) is caught by the stateful pass. -/
theorem filter_unique_inbatch_example :
    (filter_unique emptyDedup
      [some ⟨some "A", "X", "Y"⟩, some ⟨some "A", "X", "Y"⟩]).1
      = [⟨some "A", "X", "Y"⟩] := by
  decide

/-- Sanity check of the fallback hash: two id-less records whose names and
addresses agree up to case and surrounding whitespace dedupe against each
other. -/
theorem filter_unique_fallback_hash_example :
    (filter_unique emptyDedup
      [some ⟨none, "Joe", "1 Main"⟩, some ⟨none, "JOE ", " 1 MAIN"⟩]).1
      = [⟨none, "Joe", "1 Main"⟩] := by
  decide
